import Mathlib

/-!
pogo_debugger: the debugger coordination engine.

A shallow embedding of `src/pogo_debugger.go`.

* The package-level variables `debuggerState`, `verifiedBreakpoints`,
  `notificationBlocks`, `threadToIntMap` and `threadIntToStringMap` are the
  fields of `State`; every handler is a function from the state before the
  call to the state after it. Handlers run one after the other (the Go code
  serialises them with `globalLock`); goroutine interleaving is not modelled.
* A Go `map[K]V` is a duplicate-free association list (`AList`). A `range`
  loop visits every key of the map once; Go leaves the order unspecified, and
  the order of the list stands for the order a run happens to take. The loops
  below delete only the key they are visiting, so the keys visited are the
  keys the map had when the loop started.
* Pointers are modelled by the values they point to (the data model of the
  specification has no null breakpoint, frame or thread state).
* The database is outside the program. Each handler takes what the database
  answers as an argument and returns the `update` statements it issued, in
  order, as pairs (row id, response bytes).
* `int`, `int64` are `Int`: the only arithmetic is `+ 1` on counters.
-/

namespace PogoDebugger

/-! ## Data model (lines 22-67) -/

/-- A Go `map[string]V`. -/
abbrev GoMap (V : Type) := AList (fun _ : String => V)

/-- Go: `type breakpointRequest struct` (lines 22-29). -/
structure breakpointRequest where
  Hash : String
  Line : Int
  Page : String
  Status : String
  ThreadId : String
  PageStackDepth : Int
deriving DecidableEq, Repr

/-- Go: `type threadCallStack struct` (lines 31-36). `State` holds raw JSON texts. -/
structure threadCallStack where
  Page : String
  Line : Int
  FileName : String
  State : List (String × String)
deriving DecidableEq, Repr

/-- Go: `type threadState struct` (lines 38-45). -/
structure threadState where
  ThreadId : String
  ThreadIdInt : Int
  Status : String
  LastNotiffication : breakpointRequest
  NotifsCount : Int
  CallStack : List threadCallStack
deriving DecidableEq, Repr

/-- Go: `type debuggerRequest struct` (lines 47-50). -/
structure debuggerRequest where
  Depth : Int
  CallStack : List threadCallStack
deriving DecidableEq, Repr

/-- Go: `type debuggerResponse struct` (lines 52-56). `BreakPoints` is a Go map
and may be nil (`none`): a struct literal that does not name the field leaves
it nil. -/
structure debuggerResponse where
  Command : String
  BreakPoints : Option (GoMap (GoMap Bool))

/-- Go: `type pageBreakpoint struct` (lines 58-61). -/
structure pageBreakpoint where
  Line : Int
  Id : String
deriving DecidableEq, Repr

/-- Go: the local type `verificationRequestResponse` of `debuggerSetBreakpoints`
(lines 121-124). -/
structure verificationRequestResponse where
  Page : String
  Breakpoints : List pageBreakpoint
deriving DecidableEq, Repr

/-- The package-level variables (lines 65-67 and 368-369). -/
structure State where
  debuggerState : GoMap threadState
  verifiedBreakpoints : GoMap (List pageBreakpoint)
  notificationBlocks : GoMap Bool
  threadToIntMap : GoMap Int
  threadIntToStringMap : AList (fun _ : Int => String)

/-- The values the package-level variables are initialised with: five empty maps. -/
def State.init : State :=
  { debuggerState := ∅, verifiedBreakpoints := ∅, notificationBlocks := ∅,
    threadToIntMap := ∅, threadIntToStringMap := ∅ }

/-- Go: `len(m)`. -/
def len {K : Type} {V : K → Type} (m : AList V) : Nat := m.entries.length

/-! ## Library functions used by the handlers -/

/-- Go: `strconv.Itoa`, the decimal rendering of an integer. -/
def Itoa (i : Int) : String := toString i

/-- The digit loop of `strconv.ParseUint(s, 10, 64)`: `none` is a syntax error,
`some (n, false)` the value read, `some (_, true)` a range error. -/
def parseUintLoop : List Char → Nat → Option (Nat × Bool)
  | [], n => some (n, false)
  | c :: cs, n =>
    if c.toNat < 48 ∨ 57 < c.toNat then none
    else if n ≥ (2 ^ 64 - 1) / 10 + 1 then some (2 ^ 64 - 1, true)
    else
      let n1 := n * 10 + (c.toNat - 48)
      if n1 > 2 ^ 64 - 1 then some (2 ^ 64 - 1, true)
      else parseUintLoop cs n1

/-- Go: `strconv.Atoi` on a 64-bit platform, with the error dropped as in
`requestedThreadId, _ := strconv.Atoi(x[0])`: a syntax error gives 0, a value
out of range is clamped to the nearest `int`. -/
def Atoi (s : String) : Int :=
  let neg := s.data.head? = some '-'
  let digits := match s.data with
    | '+' :: cs => cs
    | '-' :: cs => cs
    | cs => cs
  if digits = [] then 0
  else match parseUintLoop digits 0 with
    | none => 0
    | some (un, _) =>
      if ¬ neg ∧ un ≥ 2 ^ 63 then 2 ^ 63 - 1
      else if neg ∧ un > 2 ^ 63 then -(2 ^ 63)
      else if neg then -(un : Int) else (un : Int)

/-- The number a string of decimal digits denotes when it follows digits that
denote `acc`. -/
def digitsVal : List Char → Nat → Nat
  | [], acc => acc
  | c :: cs, acc => digitsVal cs (acc * 10 + (c.toNat - 48))

/-- One hexadecimal digit, lower case. -/
def hexDigit (n : Nat) : Char :=
  if n < 10 then Char.ofNat (48 + n) else Char.ofNat (87 + n)

/-- Go: `encoding/json`, how one character of a string is written (HTML escaping
on, as `json.Marshal` has it). -/
def jsonEscapeChar (c : Char) : List Char :=
  if c = '"' then ['\\', '"']
  else if c = '\\' then ['\\', '\\']
  else if c = '\n' then ['\\', 'n']
  else if c = '\r' then ['\\', 'r']
  else if c = '\t' then ['\\', 't']
  else if c.toNat < 32 ∨ c = '<' ∨ c = '>' ∨ c = '&' then
    ['\\', 'u', '0', '0', hexDigit (c.toNat / 16), hexDigit (c.toNat % 16)]
  else if c.toNat = 0x2028 then ['\\', 'u', '2', '0', '2', '8']
  else if c.toNat = 0x2029 then ['\\', 'u', '2', '0', '2', '9']
  else [c]

/-- Go: `encoding/json`, a string value: quoted and escaped. -/
def jsonString (s : String) : String :=
  "\"" ++ String.mk (s.data.flatMap jsonEscapeChar) ++ "\""

/-- Byte-wise order of two strings, as `encoding/json` sorts map keys. For
well-formed UTF-8 it is the order of the code points. -/
def keyLess : List Char → List Char → Bool
  | [], [] => false
  | [], _ :: _ => true
  | _ :: _, [] => false
  | a :: as, b :: bs =>
    if a.toNat < b.toNat then true
    else if b.toNat < a.toNat then false
    else keyLess as bs

/-- Insertion of one entry into a list of entries sorted by key. -/
def insertByKey {V : Type} (e : String × V) : List (String × V) → List (String × V)
  | [] => [e]
  | x :: xs => if keyLess e.1.data x.1.data then e :: x :: xs else x :: insertByKey e xs

/-- The entries of a map in the order `encoding/json` writes them: sorted by key. -/
def sortedEntries {V : Type} (m : GoMap V) : List (String × V) :=
  m.entries.foldr (fun e acc => insertByKey (e.1, e.2) acc) []

/-- Go: `encoding/json`, a map with string keys, given the encoder of its values. -/
def jsonObject {V : Type} (enc : V → String) (m : GoMap V) : String :=
  "\x7b" ++ String.intercalate "," ((sortedEntries m).map
    (fun e => jsonString e.1 ++ ":" ++ enc e.2)) ++ "\x7d"

/-- Go: `encoding/json`, a `bool`. -/
def jsonBool (b : Bool) : String := if b then "true" else "false"

/-- Go: `json.Marshal(command)` for a `*debuggerResponse`. Both fields are
written, in declaration order, under the names of their `json` tags; the tags
carry no `omitempty`, and a nil map is written as `null`. -/
def marshalDebuggerResponse (command : debuggerResponse) : String :=
  "\x7b\"command\":" ++ jsonString command.Command ++ ",\"breakpoints\":" ++
    (match command.BreakPoints with
      | none => "null"
      | some m => jsonObject (jsonObject jsonBool) m) ++ "\x7d"

/-! ## The thread-id interner (lines 367-386) -/

/-- Go: `mapThreadIdToInt` (lines 371-386). Returns the state after the call
and the result. -/
def mapThreadIdToInt (s : State) (threadId : String) : State × Int :=
  match s.threadToIntMap.lookup threadId with
  | some threadIdInt => (s, threadIdInt)
  | none =>
    let result : Int := (len s.threadToIntMap : Int) + 1
    ({ s with
        threadToIntMap := s.threadToIntMap.insert threadId result
        threadIntToStringMap := s.threadIntToStringMap.insert result threadId },
      result)

/-- A run of calls to `mapThreadIdToInt`, one per element of the list, in
order: the state after the last call and the results of the calls. -/
def internAll (s : State) : List String → State × List Int
  | [] => (s, [])
  | x :: xs =>
    let r := mapThreadIdToInt s x
    let rest := internAll r.1 xs
    (rest.1, r.2 :: rest.2)

/-! ## The notification handler (lines 388-438) -/

/-- Go: `debuggerNotifficationReceived` (lines 388-438). `ir` is what
`json.Unmarshal` made of the payload (`none` when it returned an error);
`request` is the decoded `request` column of the queue row `ir.Hash` (`none`
when the query or the second `json.Unmarshal` returned an error). -/
def debuggerNotifficationReceived (s : State) (ir : Option breakpointRequest)
    (request : Option debuggerRequest) : State :=
  match ir with
  | none => s
  | some ir =>
    match request with
    | none => s
    | some debuggerRequest =>
      if ir.Hash ∈ s.notificationBlocks then s
      else
        let notifCount : Int :=
          match s.debuggerState.lookup ir.Hash with
          | some x => x.NotifsCount
          | none => 0
        let r := mapThreadIdToInt s ir.ThreadId
        { r.1 with
          debuggerState := r.1.debuggerState.insert ir.Hash
            { ThreadId := ir.ThreadId
              ThreadIdInt := r.2
              CallStack := debuggerRequest.CallStack
              Status := ir.Status
              LastNotiffication := ir
              NotifsCount := notifCount + 1 } }

/-! ## The HTTP handlers -/

/-- What a handler did: the state it left, the statements
`update __pogo_debugger_queue set response=$1 where id = $2` it issued, in
order, as pairs (id, response), and the ids for which the statement returned
an error (the handler prints a line for each). -/
structure Out where
  state : State
  writes : List (String × String)
  failed : List String

/-- Go: `debuggerStatus` (lines 93-118), the loop at lines 98-105. `count k` is
the value of the variable `count` after the `Scan` for key `k`: the number
the query returned, or 0 when the query failed. -/
def debuggerStatus (s : State) (count : String → Int) : State :=
  s.debuggerState.keys.foldl
    (fun s k =>
      if count k = 0 then
        { s with
          debuggerState := s.debuggerState.erase k
          notificationBlocks := s.notificationBlocks.insert k true }
      else s)
    s

/-- Go: `mapBreakpoints` (lines 176-189). -/
def mapBreakpoints (s : State) : GoMap (GoMap Bool) :=
  s.verifiedBreakpoints.entries.foldl
    (fun breakpointChecks e =>
      let pageBreakpoints : GoMap Bool :=
        e.2.foldl (fun pageBreakpoints ff => pageBreakpoints.insert (Itoa ff.Line) true) ∅
      breakpointChecks.insert e.1 pageBreakpoints)
    ∅

/-- The body of the range loops at lines 222-229, 240-247 and 327-334, which
are the same statement for statement: send the response to row `k`, print when
that failed, delete `k` from `debuggerState`, add it to `notificationBlocks`.
`execFails k` says whether `db.Exec` returned an error for row `k`. -/
def releaseKey (marshalledCommand : String) (execFails : String → Bool) (o : Out)
    (k : String) : Out :=
  { state :=
      { o.state with
        debuggerState := o.state.debuggerState.erase k
        notificationBlocks := o.state.notificationBlocks.insert k true }
    writes := o.writes ++ [(k, marshalledCommand)]
    failed := if execFails k then o.failed ++ [k] else o.failed }

/-- The range loop `for k := range debuggerState` with the body `releaseKey`. -/
def releaseLoop (marshalledCommand : String) (execFails : String → Bool) (s : State) : Out :=
  s.debuggerState.keys.foldl (releaseKey marshalledCommand execFails)
    { state := s, writes := [], failed := [] }

/-- Go: `debuggerUpdateActiveBreakpoints` (lines 214-231). -/
def debuggerUpdateActiveBreakpoints (s : State) (execFails : String → Bool) : Out :=
  let command : debuggerResponse :=
    { Command := "set_breakpoints", BreakPoints := some (mapBreakpoints s) }
  let marshalledCommand := marshalDebuggerResponse command
  releaseLoop marshalledCommand execFails s

/-- What the database call at line 144 and the `json.Unmarshal` at line 150
produce. -/
inductive VerifyOutcome where
  /-- The query returned an error: `vb` keeps its initial value `""`. -/
  | dbError : VerifyOutcome
  /-- The query returned a text: `vbUnmarshalled` after `json.Unmarshal`, and
  whether `json.Unmarshal` returned an error. -/
  | reply (vbUnmarshalled : List verificationRequestResponse) (unmarshalError : Bool) :
      VerifyOutcome

/-- Go: `debuggerSetBreakpoints` (lines 120-174). `body` is the decoded request
body (`none` when `decoder.Decode` returned an error, line 132); `verify` is the
database function `__pogo_break_points_verify` followed by `json.Unmarshal`,
on decoded values. When the query fails `vb` is `""`, on which `json.Unmarshal`
returns an error and leaves `vbUnmarshalled` empty. Neither error makes the
handler return (lines 145-147 and 151-153 only print). -/
def debuggerSetBreakpoints (s : State) (body : Option (List verificationRequestResponse))
    (verify : List verificationRequestResponse → VerifyOutcome)
    (execFails : String → Bool) : Out :=
  match body with
  | none => { state := s, writes := [], failed := [] }
  | some vr =>
    let vbUnmarshalled : List verificationRequestResponse :=
      match verify vr with
      | .dbError => []
      | .reply l _ => l
    let s1 : State :=
      { s with
        verifiedBreakpoints :=
          vbUnmarshalled.foldl (fun m value => m.insert value.Page value.Breakpoints)
            s.verifiedBreakpoints }
    debuggerUpdateActiveBreakpoints s1 execFails

/-- Go: `debuggerContinueAll` (lines 233-249). -/
def debuggerContinueAll (s : State) (execFails : String → Bool) : Out :=
  let command : debuggerResponse := { Command := "continue", BreakPoints := none }
  let marshalledCommand := marshalDebuggerResponse command
  releaseLoop marshalledCommand execFails s

/-- Go: `debuggerStep` (lines 251-277). `thread_id` is the first value of the
query parameter `thread_id` (`x[0]`), `none` when the parameter is absent. -/
def debuggerStep (s : State) (thread_id : Option String) (execFails : String → Bool) : Out :=
  match thread_id with
  | none => { state := s, writes := [], failed := [] }
  | some x0 =>
    let command : debuggerResponse := { Command := "step", BreakPoints := none }
    let marshalledCommand := marshalDebuggerResponse command
    s.debuggerState.keys.foldl
      (fun o k =>
        let requestedThreadId := Atoi x0
        match o.state.debuggerState.lookup k with
        | none => o
        | some ts =>
          if ts.ThreadIdInt = requestedThreadId then
            { o with
              writes := o.writes ++ [(k, marshalledCommand)]
              failed := if execFails k then o.failed ++ [k] else o.failed }
          else o)
      { state := s, writes := [], failed := [] }

/-- Go: `debuggerClearBreakpoints` (lines 320-341). -/
def debuggerClearBreakpoints (s : State) (execFails : String → Bool) : Out :=
  let command : debuggerResponse := { Command := "clear_breakpoints", BreakPoints := none }
  let marshalledCommand := marshalDebuggerResponse command
  let o := releaseLoop marshalledCommand execFails s
  { o with
    state :=
      { o.state with
        verifiedBreakpoints := ∅
        notificationBlocks := ∅
        debuggerState := ∅ } }

/-! ## Runs -/

/-- One call of a handler, with what the outside world answered during it. -/
inductive Op where
  | notification (ir : Option breakpointRequest) (request : Option debuggerRequest)
  | status (count : String → Int)
  | setBreakpoints (body : Option (List verificationRequestResponse))
      (verify : List verificationRequestResponse → VerifyOutcome) (execFails : String → Bool)
  | updateActiveBreakpoints (execFails : String → Bool)
  | continueAll (execFails : String → Bool)
  | step (thread_id : Option String) (execFails : String → Bool)
  | clearBreakpoints (execFails : String → Bool)

/-- The state after one call. -/
def Op.exec (s : State) : Op → State
  | .notification ir request => debuggerNotifficationReceived s ir request
  | .status count => debuggerStatus s count
  | .setBreakpoints body verify execFails => (debuggerSetBreakpoints s body verify execFails).state
  | .updateActiveBreakpoints execFails => (debuggerUpdateActiveBreakpoints s execFails).state
  | .continueAll execFails => (debuggerContinueAll s execFails).state
  | .step thread_id execFails => (debuggerStep s thread_id execFails).state
  | .clearBreakpoints execFails => (debuggerClearBreakpoints s execFails).state

/-- The state after a sequence of calls. -/
def run (s : State) (ops : List Op) : State := ops.foldl Op.exec s

/-- Whether a call is `clear_breakpoints`. -/
def Op.isClear : Op → Bool
  | .clearBreakpoints _ => true
  | _ => false


/-! ## Sample values (scenarios of the specification, section 8) -/

/-- A stop notification for queue row `hash` from thread `threadId`. -/
def sampleNotification (hash threadId : String) : breakpointRequest :=
  { Hash := hash, Line := 5, Page := "p", Status := "paused", ThreadId := threadId,
    PageStackDepth := 1 }

/-- The `request` column of a queue row: one frame. -/
def sampleRequest : debuggerRequest :=
  { Depth := 1, CallStack := [{ Page := "p", Line := 5, FileName := "p.sql", State := [] }] }

/-- One paused thread: row `h1`, thread `t-A` (interned as 1). -/
def pausedOne : State :=
  run State.init [.notification (some (sampleNotification "h1" "t-A")) (some sampleRequest)]

/-- Two paused threads: row `h1` of thread `t-A` (1) and row `h2` of thread `t-B` (2). -/
def pausedTwo : State :=
  run State.init
    [.notification (some (sampleNotification "h1" "t-A")) (some sampleRequest),
     .notification (some (sampleNotification "h2" "t-B")) (some sampleRequest)]

/-- A requested breakpoint set, a mapping page -> sequence of breakpoints, as
the request body that submits it: one entry per page. -/
def requestOf (R : GoMap (List pageBreakpoint)) : List verificationRequestResponse :=
  R.entries.map (fun e => { Page := e.1, Breakpoints := e.2 })

/-- A verifier that returns its input unchanged. -/
def identityVerifier (vr : List verificationRequestResponse) : VerifyOutcome :=
  .reply vr false

/-- A state whose verified set holds page `q`: what `set_breakpoints` for page
`q` leaves from the initial state when the verifier returns its input. -/
def verifiedQ : State :=
  (debuggerSetBreakpoints State.init
    (some [{ Page := "q", Breakpoints := [{ Line := 1, Id := "a" }] }])
    identityVerifier (fun _ => false)).state

/-- A requested breakpoint set with the single page `p`. -/
def sampleR : GoMap (List pageBreakpoint) :=
  AList.singleton "p" [{ Line := 5, Id := "bp-1" }]

/-- A state whose verified set holds page `p` with breakpoints on lines 5 and 12. -/
def verifiedP : State :=
  (debuggerSetBreakpoints pausedOne
    (some [{ Page := "p", Breakpoints := [{ Line := 5, Id := "a" }, { Line := 12, Id := "b" }] }])
    identityVerifier (fun _ => false)).state

/-- One delivery of a stop notification: what the payload decoded to and what
the lookup of the queue row gave (the two arguments of
`debuggerNotifficationReceived`). -/
abbrev Delivery := Option breakpointRequest × Option debuggerRequest

/-- Whether a delivery is a stop notification for hash `h` that is handled
successfully: the payload parsed, it names `h`, and the queue row was found
and decoded. -/
def handledFor (h : String) (d : Delivery) : Bool :=
  match d with
  | (some ir, some _) => decide (ir.Hash = h)
  | _ => false

/-- The state after a sequence of deliveries, each handled by
`debuggerNotifficationReceived`. -/
def deliver (s : State) (ds : List Delivery) : State :=
  ds.foldl (fun s d => debuggerNotifficationReceived s d.1 d.2) s

/-- The `NotifsCount` of the entry of hash `h`, 0 when `h` is not paused. -/
def notifsCountOf (s : State) (h : String) : Int :=
  match s.debuggerState.lookup h with
  | some ts => ts.NotifsCount
  | none => 0

/-- The interner after the strings of the set `S`, and no others, were
interned: the keys of `threadToIntMap` are the strings of `S`, their number is
`len`, the two maps are inverse to each other, and the integers in use are
1 .. `len`. -/
def InternerInv (s : State) (S : Finset String) : Prop :=
  (∀ x : String, x ∈ s.threadToIntMap ↔ x ∈ S) ∧
  len s.threadToIntMap = S.card ∧
  (∀ (x : String) (i : Int),
    s.threadToIntMap.lookup x = some i ↔ s.threadIntToStringMap.lookup i = some x) ∧
  (∀ i : Int, i ∈ s.threadIntToStringMap ↔ 1 ≤ i ∧ i ≤ (len s.threadToIntMap : Int))

/-- No hash is both a key of `debuggerState` and a key of `notificationBlocks`. -/
def NoOverlap (s : State) : Prop :=
  ∀ h : String, h ∈ s.debuggerState → h ∉ s.notificationBlocks

/-! ## Facts about maps -/

theorem alist_eq_empty {K : Type} {V : K → Type} (m : AList V) (h : ∀ k, k ∉ m) : m = ∅ := by
  apply AList.ext
  rcases m with ⟨entries, nd⟩
  cases entries with
  | nil => rfl
  | cons e es =>
    exact absurd (AList.mem_keys.mpr (by simp [AList.keys, List.keys])) (h e.1)

theorem mem_foldl_erase {V : Type} (ks : List String) (m : GoMap V) (h : String) :
    h ∈ ks.foldl (fun m k => m.erase k) m ↔ h ∈ m ∧ h ∉ ks := by
  induction ks generalizing m with
  | nil => simp
  | cons k ks ih =>
    simp only [List.foldl_cons, ih, AList.mem_erase, List.mem_cons, not_or]
    tauto

theorem mem_foldl_insert (ks : List String) (m : GoMap Bool) (h : String) :
    h ∈ ks.foldl (fun m k => m.insert k true) m ↔ h ∈ m ∨ h ∈ ks := by
  induction ks generalizing m with
  | nil => simp
  | cons k ks ih =>
    simp only [List.foldl_cons, ih, AList.mem_insert, List.mem_cons]
    tauto

theorem foldl_erase_keys {V : Type} (m : GoMap V) :
    m.keys.foldl (fun m k => m.erase k) m = ∅ := by
  apply alist_eq_empty
  intro k hk
  rw [mem_foldl_erase] at hk
  exact hk.2 (AList.mem_keys.mp hk.1)

/-! ## The release loop -/

theorem releaseKey_fold_state (cmd : String) (ef : String → Bool) (ks : List String) (o : Out) :
    (ks.foldl (releaseKey cmd ef) o).state =
      { o.state with
        debuggerState := ks.foldl (fun m k => m.erase k) o.state.debuggerState
        notificationBlocks := ks.foldl (fun m k => m.insert k true) o.state.notificationBlocks } := by
  induction ks generalizing o with
  | nil => rfl
  | cons k ks ih => simp only [List.foldl_cons]; rw [ih]; rfl

theorem releaseKey_fold_writes (cmd : String) (ef : String → Bool) (ks : List String) (o : Out) :
    (ks.foldl (releaseKey cmd ef) o).writes = o.writes ++ ks.map (fun k => (k, cmd)) := by
  induction ks generalizing o with
  | nil => simp
  | cons k ks ih => simp only [List.foldl_cons]; rw [ih]; simp [releaseKey]

theorem releaseLoop_state (cmd : String) (ef : String → Bool) (s : State) :
    (releaseLoop cmd ef s).state =
      { s with
        debuggerState := ∅
        notificationBlocks := s.debuggerState.keys.foldl (fun m k => m.insert k true)
          s.notificationBlocks } := by
  unfold releaseLoop
  rw [releaseKey_fold_state]
  simp only [foldl_erase_keys]

theorem releaseLoop_writes (cmd : String) (ef : String → Bool) (s : State) :
    (releaseLoop cmd ef s).writes = s.debuggerState.keys.map (fun k => (k, cmd)) := by
  unfold releaseLoop
  rw [releaseKey_fold_writes]
  simp

/-! ## What each handler leaves alone -/

theorem mapThreadIdToInt_frame (s : State) (x : String) :
    (mapThreadIdToInt s x).1.debuggerState = s.debuggerState ∧
    (mapThreadIdToInt s x).1.notificationBlocks = s.notificationBlocks ∧
    (mapThreadIdToInt s x).1.verifiedBreakpoints = s.verifiedBreakpoints := by
  unfold mapThreadIdToInt
  split <;> simp

theorem notification_blocked (s : State) (ir : breakpointRequest)
    (request : Option debuggerRequest) (h : ir.Hash ∈ s.notificationBlocks) :
    debuggerNotifficationReceived s (some ir) request = s := by
  unfold debuggerNotifficationReceived
  cases request with
  | none => rfl
  | some r => simp [h]

theorem notification_blocks (s : State) (ir : Option breakpointRequest)
    (request : Option debuggerRequest) :
    (debuggerNotifficationReceived s ir request).notificationBlocks = s.notificationBlocks := by
  unfold debuggerNotifficationReceived
  cases ir with
  | none => rfl
  | some ir =>
    cases request with
    | none => rfl
    | some r =>
      by_cases hb : ir.Hash ∈ s.notificationBlocks
      · simp [hb]
      · simp [hb, (mapThreadIdToInt_frame s ir.ThreadId).2.1]

theorem notification_mem (s : State) (ir : Option breakpointRequest)
    (request : Option debuggerRequest) (h : String)
    (hm : h ∈ (debuggerNotifficationReceived s ir request).debuggerState) :
    h ∈ s.debuggerState ∨ h ∉ s.notificationBlocks := by
  unfold debuggerNotifficationReceived at hm
  cases ir with
  | none => exact Or.inl hm
  | some ir =>
    cases request with
    | none => exact Or.inl hm
    | some r =>
      by_cases hb : ir.Hash ∈ s.notificationBlocks
      · simp only [hb, if_true] at hm
        exact Or.inl hm
      · simp only [hb, if_false, AList.mem_insert, (mapThreadIdToInt_frame s ir.ThreadId).1] at hm
        rcases hm with hm | hm
        · exact Or.inr (hm ▸ hb)
        · exact Or.inl hm

theorem status_fold_noOverlap (count : String → Int) (ks : List String) (s : State)
    (hs : NoOverlap s) :
    NoOverlap (ks.foldl
      (fun s k =>
        if count k = 0 then
          { s with
            debuggerState := s.debuggerState.erase k
            notificationBlocks := s.notificationBlocks.insert k true }
        else s)
      s) := by
  induction ks generalizing s with
  | nil => exact hs
  | cons k ks ih =>
    simp only [List.foldl_cons]
    apply ih
    by_cases hc : count k = 0
    · simp only [hc, if_true]
      intro h hm hb
      simp only [AList.mem_erase] at hm
      simp only [AList.mem_insert] at hb
      rcases hb with hb | hb
      · exact hm.1 hb
      · exact hs h hm.2 hb
    · simp only [hc, if_false]
      exact hs

theorem step_fold_state (cmd : String) (n : Int) (ef : String → Bool) (ks : List String)
    (o : Out) :
    (ks.foldl
      (fun o k =>
        let requestedThreadId := n
        match o.state.debuggerState.lookup k with
        | none => o
        | some ts =>
          if ts.ThreadIdInt = requestedThreadId then
            { o with
              writes := o.writes ++ [(k, cmd)]
              failed := if ef k then o.failed ++ [k] else o.failed }
          else o)
      o).state = o.state := by
  induction ks generalizing o with
  | nil => rfl
  | cons k ks ih =>
    simp only [List.foldl_cons]
    rw [ih]
    split
    · rfl
    · split <;> rfl

theorem debuggerStep_state (s : State) (thread_id : Option String) (ef : String → Bool) :
    (debuggerStep s thread_id ef).state = s := by
  unfold debuggerStep
  cases thread_id with
  | none => rfl
  | some x0 => exact step_fold_state _ _ ef _ _

theorem releaseLoop_noOverlap (cmd : String) (ef : String → Bool) (s : State) :
    NoOverlap (releaseLoop cmd ef s).state := by
  intro h hm
  rw [releaseLoop_state] at hm
  exact absurd hm (AList.not_mem_empty h)

theorem exec_noOverlap (s : State) (op : Op) (hs : NoOverlap s) : NoOverlap (op.exec s) := by
  cases op with
  | notification ir request =>
    intro h hm hb
    rw [Op.exec, notification_blocks] at hb
    rcases notification_mem s ir request h hm with h1 | h1
    · exact hs h h1 hb
    · exact h1 hb
  | status count => exact status_fold_noOverlap count _ s hs
  | setBreakpoints body verify ef =>
    simp only [Op.exec, debuggerSetBreakpoints]
    cases body with
    | none => exact hs
    | some vr => exact releaseLoop_noOverlap _ _ _
  | updateActiveBreakpoints ef => exact releaseLoop_noOverlap _ _ _
  | continueAll ef => exact releaseLoop_noOverlap _ _ _
  | step thread_id ef =>
    simp only [Op.exec, debuggerStep_state]
    exact hs
  | clearBreakpoints ef =>
    intro h hm
    exact absurd hm (AList.not_mem_empty h)

theorem run_noOverlap (ops : List Op) (s : State) (hs : NoOverlap s) : NoOverlap (run s ops) := by
  induction ops generalizing s with
  | nil => exact hs
  | cons op ops ih => exact ih _ (exec_noOverlap s op hs)

/-- C1. In every state reached from the initial state (all maps empty) by any
sequence of calls of the handlers, whatever the database answered, no hash is
both a key of `debuggerState` and a member of `notificationBlocks`. -/
theorem C1_paused_and_blocked_disjoint (ops : List Op) (h : String) :
    ¬ (h ∈ (run State.init ops).debuggerState ∧ h ∈ (run State.init ops).notificationBlocks) := by
  intro hh
  exact run_noOverlap ops State.init (fun k hk => absurd hk (AList.not_mem_empty k)) h hh.1 hh.2

/-- C1 on a run: `h1` stops, `continue_all` releases it, `h1` is notified again. -/
theorem C1_paused_and_blocked_disjoint_witness :
    ¬ ("h1" ∈ (run State.init
          [.notification (some (sampleNotification "h1" "t-A")) (some sampleRequest),
           .continueAll (fun _ => true),
           .notification (some (sampleNotification "h1" "t-A")) (some sampleRequest)]).debuggerState ∧
       "h1" ∈ (run State.init
          [.notification (some (sampleNotification "h1" "t-A")) (some sampleRequest),
           .continueAll (fun _ => true),
           .notification (some (sampleNotification "h1" "t-A")) (some sampleRequest)]).notificationBlocks) :=
  C1_paused_and_blocked_disjoint _ "h1"

/-! ## Blocked hashes stay blocked until `clear_breakpoints` -/

theorem status_fold_blocks (count : String → Int) (ks : List String) (s : State) (h : String)
    (hb : h ∈ s.notificationBlocks) :
    h ∈ (ks.foldl
      (fun s k =>
        if count k = 0 then
          { s with
            debuggerState := s.debuggerState.erase k
            notificationBlocks := s.notificationBlocks.insert k true }
        else s)
      s).notificationBlocks := by
  induction ks generalizing s with
  | nil => exact hb
  | cons k ks ih =>
    simp only [List.foldl_cons]
    apply ih
    by_cases hc : count k = 0
    · simp only [hc, if_true, AList.mem_insert]
      exact Or.inr hb
    · simp only [hc, if_false]
      exact hb

theorem releaseLoop_blocks (cmd : String) (ef : String → Bool) (s : State) (h : String) :
    h ∈ (releaseLoop cmd ef s).state.notificationBlocks ↔
      h ∈ s.notificationBlocks ∨ h ∈ s.debuggerState := by
  rw [releaseLoop_state]
  simp only [mem_foldl_insert, ← AList.mem_keys]

theorem exec_blocks_mono (s : State) (op : Op) (hc : op.isClear = false) (h : String)
    (hb : h ∈ s.notificationBlocks) : h ∈ (op.exec s).notificationBlocks := by
  cases op with
  | notification ir request => rw [Op.exec, notification_blocks]; exact hb
  | status count => exact status_fold_blocks count _ s h hb
  | setBreakpoints body verify ef =>
    simp only [Op.exec, debuggerSetBreakpoints]
    cases body with
    | none => exact hb
    | some vr => exact (releaseLoop_blocks _ _ _ h).mpr (Or.inl hb)
  | updateActiveBreakpoints ef => exact (releaseLoop_blocks _ _ _ h).mpr (Or.inl hb)
  | continueAll ef => exact (releaseLoop_blocks _ _ _ h).mpr (Or.inl hb)
  | step thread_id ef =>
    simp only [Op.exec, debuggerStep_state]
    exact hb
  | clearBreakpoints ef => simp [Op.isClear] at hc

theorem run_blocks_mono (ops : List Op) (s : State) (hc : ∀ op ∈ ops, op.isClear = false)
    (h : String) (hb : h ∈ s.notificationBlocks) : h ∈ (run s ops).notificationBlocks := by
  induction ops generalizing s with
  | nil => exact hb
  | cons op ops ih =>
    exact ih _ (fun o ho => hc o (List.mem_cons_of_mem _ ho))
      (exec_blocks_mono s op (hc op (List.mem_cons_self _ _)) h hb)

/-- C8. Replay after release is suppressed. After `continue_all`, whether the
database writes succeeded or failed, `debuggerState` is empty and every hash
that was paused is in `notificationBlocks`; and after any further calls other
than `clear_breakpoints`, such a hash is still not paused and handling a stop
notification for it leaves the state unchanged. With no further calls this is
the state right after `continue_all`, whose table is empty. -/
theorem C8_replay_after_continue_all_suppressed (s : State) (execFails : String → Bool) :
    (debuggerContinueAll s execFails).state.debuggerState = ∅ ∧
    (∀ h : String, h ∈ s.debuggerState →
      h ∈ (debuggerContinueAll s execFails).state.notificationBlocks) ∧
    (∀ ops : List Op, (∀ op ∈ ops, op.isClear = false) →
      ∀ (ir : breakpointRequest) (request : Option debuggerRequest),
        ir.Hash ∈ s.debuggerState →
        debuggerNotifficationReceived (run (debuggerContinueAll s execFails).state ops)
            (some ir) request
          = run (debuggerContinueAll s execFails).state ops ∧
        ir.Hash ∉ (run (debuggerContinueAll s execFails).state ops).debuggerState) := by
  have hblk : ∀ h : String, h ∈ s.debuggerState →
      h ∈ (debuggerContinueAll s execFails).state.notificationBlocks := fun h hm =>
    (releaseLoop_blocks _ _ _ h).mpr (Or.inr hm)
  refine ⟨?_, hblk, ?_⟩
  · simp only [debuggerContinueAll, releaseLoop_state]
  · intro ops hc ir request hm
    have hb := run_blocks_mono ops _ hc ir.Hash (hblk _ hm)
    refine ⟨notification_blocked _ ir request hb, fun hp => ?_⟩
    exact run_noOverlap ops _ (releaseLoop_noOverlap _ _ _) ir.Hash hp hb

/-- C8, on the scenario of the specification: `h1` is paused, `continue_all`
runs with a failing database write, a status request follows, and the
notification for `h1` is replayed. -/
theorem C8_replay_after_continue_all_suppressed_witness :
    (debuggerContinueAll pausedOne (fun _ => true)).state.debuggerState = ∅ ∧
    "h1" ∈ (debuggerContinueAll pausedOne (fun _ => true)).state.notificationBlocks ∧
    debuggerNotifficationReceived
        (run (debuggerContinueAll pausedOne (fun _ => true)).state [.status (fun _ => 1)])
        (some (sampleNotification "h1" "t-A")) (some sampleRequest)
      = run (debuggerContinueAll pausedOne (fun _ => true)).state [.status (fun _ => 1)] :=
  ⟨(C8_replay_after_continue_all_suppressed pausedOne (fun _ => true)).1,
   (C8_replay_after_continue_all_suppressed pausedOne (fun _ => true)).2.1 "h1" (by decide),
   ((C8_replay_after_continue_all_suppressed pausedOne (fun _ => true)).2.2
      [.status (fun _ => 1)] (by simp [Op.isClear])
      (sampleNotification "h1" "t-A") (some sampleRequest) (by decide)).1⟩

/-- C9. Reset. After `debuggerClearBreakpoints`, `verifiedBreakpoints`,
`debuggerState` and `notificationBlocks` are empty, as initially, and the
statements issued are one write of the `clear_breakpoints` command to the row
of each hash that was paused before the call, and nothing else. -/
theorem C9_clear_breakpoints_resets (s : State) (execFails : String → Bool) :
    (debuggerClearBreakpoints s execFails).state.verifiedBreakpoints
      = State.init.verifiedBreakpoints ∧
    (debuggerClearBreakpoints s execFails).state.debuggerState = State.init.debuggerState ∧
    (debuggerClearBreakpoints s execFails).state.notificationBlocks
      = State.init.notificationBlocks ∧
    (debuggerClearBreakpoints s execFails).writes =
      s.debuggerState.keys.map (fun k =>
        (k, marshalDebuggerResponse { Command := "clear_breakpoints", BreakPoints := none })) := by
  refine ⟨rfl, rfl, rfl, ?_⟩
  simp only [debuggerClearBreakpoints, releaseLoop_writes]

/-! ## Reading back a decimal rendering -/

theorem digitsVal_ge (cs : List Char) (acc : Nat) : acc ≤ digitsVal cs acc := by
  induction cs generalizing acc with
  | nil => exact Nat.le_refl _
  | cons c cs ih =>
    have := ih (acc * 10 + (c.toNat - 48))
    simp only [digitsVal]
    omega

theorem parseUintLoop_digits (cs : List Char) (acc : Nat)
    (hd : ∀ c ∈ cs, 48 ≤ c.toNat ∧ c.toNat ≤ 57) (hv : digitsVal cs acc < 2 ^ 64) :
    parseUintLoop cs acc = some (digitsVal cs acc, false) := by
  induction cs generalizing acc with
  | nil => rfl
  | cons c cs ih =>
    have hc := hd c (List.mem_cons_self _ _)
    have hge := digitsVal_ge cs (acc * 10 + (c.toNat - 48))
    simp only [digitsVal] at hv ⊢
    have h1 : ¬ (c.toNat < 48 ∨ 57 < c.toNat) := by omega
    have h2 : ¬ (acc ≥ (2 ^ 64 - 1) / 10 + 1) := by norm_num; omega
    have h3 : ¬ (acc * 10 + (c.toNat - 48) > 2 ^ 64 - 1) := by norm_num; omega
    simp only [parseUintLoop, h1, h2, h3, if_false]
    exact ih _ (fun x hx => hd x (List.mem_cons_of_mem _ hx)) hv

theorem digitChar_digit (k : Nat) (hk : k < 10) :
    48 ≤ (Nat.digitChar k).toNat ∧ (Nat.digitChar k).toNat ≤ 57 ∧
      (Nat.digitChar k).toNat - 48 = k := by
  interval_cases k <;> decide

theorem toDigitsCore_spec (fuel n : Nat) (ds : List Char) (hf : n < fuel)
    (hds : ∀ c ∈ ds, 48 ≤ c.toNat ∧ c.toNat ≤ 57) :
    (∀ c ∈ Nat.toDigitsCore 10 fuel n ds, 48 ≤ c.toNat ∧ c.toNat ≤ 57) ∧
    digitsVal (Nat.toDigitsCore 10 fuel n ds) 0 = digitsVal ds n ∧
    Nat.toDigitsCore 10 fuel n ds ≠ [] := by
  induction fuel generalizing n ds with
  | zero => omega
  | succ fuel ih =>
    have hdc := digitChar_digit (n % 10) (Nat.mod_lt _ (by norm_num))
    have hds1 : ∀ c ∈ Nat.digitChar (n % 10) :: ds, 48 ≤ c.toNat ∧ c.toNat ≤ 57 := by
      intro c hc
      rcases List.mem_cons.mp hc with h | h
      · rw [h]; exact ⟨hdc.1, hdc.2.1⟩
      · exact hds c h
    by_cases hz : n / 10 = 0
    · simp only [Nat.toDigitsCore, hz, if_true]
      refine ⟨hds1, ?_, by simp⟩
      simp only [digitsVal, hdc.2.2]
      congr 1
      omega
    · simp only [Nat.toDigitsCore, hz, if_false]
      have := ih (n / 10) (Nat.digitChar (n % 10) :: ds) (by omega) hds1
      refine ⟨this.1, ?_, this.2.2⟩
      rw [this.2.1]
      simp only [digitsVal, hdc.2.2]
      congr 1
      omega

theorem Atoi_Itoa_ofNat (n : Nat) (hn : n < 2 ^ 63) : Atoi (Itoa (n : Int)) = (n : Int) := by
  obtain ⟨hdig, hval, hne⟩ := toDigitsCore_spec (n + 1) n [] (by omega) (by simp)
  have hdata : (Itoa (n : Int)).data = Nat.toDigitsCore 10 (n + 1) n [] := rfl
  simp only [digitsVal] at hval
  have hparse := parseUintLoop_digits _ 0 hdig (by rw [hval]; omega)
  rw [hval] at hparse
  cases hcs : Nat.toDigitsCore 10 (n + 1) n [] with
  | nil => exact absurd hcs hne
  | cons c cs =>
    have hc := hdig c (by rw [hcs]; exact List.mem_cons_self _ _)
    rw [hcs] at hparse hdata
    have hplus : c ≠ '+' := by intro h; rw [h] at hc; revert hc; decide
    have hminus : c ≠ '-' := by intro h; rw [h] at hc; revert hc; decide
    unfold Atoi
    simp only [hdata, List.head?_cons, Option.some.injEq, hminus, false_and]
    have hm : (match c :: cs with
      | '+' :: cs => cs
      | '-' :: cs => cs
      | cs => cs) = c :: cs := by
      split
      · rename_i h; exact absurd (List.cons.inj h).1 hplus
      · rename_i h; exact absurd (List.cons.inj h).1 hminus
      · rfl
    rw [hm, hparse]
    simp
    omega

theorem Atoi_Itoa_negSucc (m : Nat) (hm : m < 2 ^ 63) :
    Atoi (Itoa (Int.negSucc m)) = Int.negSucc m := by
  obtain ⟨hdig, hval, hne⟩ := toDigitsCore_spec (m + 2) (m + 1) [] (by omega) (by simp)
  have hdata : (Itoa (Int.negSucc m)).data = '-' :: Nat.toDigitsCore 10 (m + 2) (m + 1) [] := rfl
  simp only [digitsVal] at hval
  have hparse := parseUintLoop_digits _ 0 hdig (by rw [hval]; omega)
  rw [hval] at hparse
  unfold Atoi
  simp only [hdata, List.head?_cons, hparse]
  simp [hne]
  rw [if_neg (by omega), Int.negSucc_eq]
  omega

/-- Reading back a decimal rendering: `strconv.Atoi(strconv.Itoa(i))` is `i` for
every `i` in the range of a 64-bit `int`. -/
theorem Atoi_Itoa (i : Int) (hlo : -(2 ^ 63) ≤ i) (hhi : i < 2 ^ 63) : Atoi (Itoa i) = i := by
  cases i with
  | ofNat n =>
    have h : (n : Int) < 2 ^ 63 := hhi
    exact Atoi_Itoa_ofNat n (by omega)
  | negSucc m =>
    have h : -(2 ^ 63) ≤ -((m : Int) + 1) := by rw [← Int.negSucc_eq]; exact hlo
    exact Atoi_Itoa_negSucc m (by omega)

/-! ## Step -/

theorem step_fold_writes (cmd : String) (n : Int) (ef : String → Bool) (ks : List String)
    (o : Out) :
    (ks.foldl
      (fun o k =>
        let requestedThreadId := n
        match o.state.debuggerState.lookup k with
        | none => o
        | some ts =>
          if ts.ThreadIdInt = requestedThreadId then
            { o with
              writes := o.writes ++ [(k, cmd)]
              failed := if ef k then o.failed ++ [k] else o.failed }
          else o)
      o).writes =
      o.writes ++ (ks.filter (fun k =>
        (o.state.debuggerState.lookup k).any (fun ts => decide (ts.ThreadIdInt = n)))).map
          (fun k => (k, cmd)) := by
  induction ks generalizing o with
  | nil => simp
  | cons k ks ih =>
    simp only [List.foldl_cons]
    rw [ih]
    cases hl : o.state.debuggerState.lookup k with
    | none => simp [hl, List.filter_cons]
    | some ts =>
      by_cases ht : ts.ThreadIdInt = n
      · simp [hl, ht, List.filter_cons]
      · simp [hl, ht, List.filter_cons]

/-- C5. Step with `thread_id=N` (any query value that `strconv.Atoi` reads as
`N`; by `Atoi_Itoa` the decimal rendering of `N` is one) leaves the whole state as it was, so no entry leaves `debuggerState` and
none joins `notificationBlocks`, and the statements it issues are one write of
the step command to the row of each paused hash whose `ThreadIdInt` is `N`,
and nothing else. -/
theorem C5_step_writes_matching_rows_only (s : State) (x0 : String) (N : Int)
    (execFails : String → Bool) (hN : Atoi x0 = N) :
    (debuggerStep s (some x0) execFails).state = s ∧
    (debuggerStep s (some x0) execFails).writes =
      (s.debuggerState.keys.filter (fun k =>
        (s.debuggerState.lookup k).any (fun ts => decide (ts.ThreadIdInt = N)))).map
          (fun k => (k, marshalDebuggerResponse { Command := "step", BreakPoints := none })) := by
  refine ⟨debuggerStep_state _ _ _, ?_⟩
  subst hN
  simp only [debuggerStep]
  rw [step_fold_writes]
  simp

/-- C5 on scenario 4 of the specification: `h1` (thread 1) and `h2` (thread 2)
are paused and the request is `/command/step?thread_id=2`. -/
theorem C5_step_writes_matching_rows_only_witness :
    Atoi "2" = 2 ∧
    (debuggerStep pausedTwo (some "2") (fun _ => false)).state = pausedTwo ∧
    (debuggerStep pausedTwo (some "2") (fun _ => false)).writes =
      (pausedTwo.debuggerState.keys.filter (fun k =>
        (pausedTwo.debuggerState.lookup k).any (fun ts => decide (ts.ThreadIdInt = 2)))).map
          (fun k => (k, marshalDebuggerResponse { Command := "step", BreakPoints := none })) :=
  ⟨by decide, C5_step_writes_matching_rows_only pausedTwo "2" 2 (fun _ => false) (by decide)⟩

/-! ## The encoded commands -/

/-- C2, as stated, fails: with `h1` paused, `continue_all` does not write
`{"command":"continue"}` to row `h1`; the bytes written have a `breakpoints`
field, with value `null`. -/
theorem C2_continue_all_bytes_counterexample :
    (debuggerContinueAll pausedOne (fun _ => false)).writes
      ≠ [("h1", "\x7b\"command\":\"continue\"\x7d")] ∧
    (debuggerContinueAll pausedOne (fun _ => false)).writes
      = [("h1", "\x7b\"command\":\"continue\",\"breakpoints\":null\x7d")] := by
  decide

/-- C2, amended. Every encoded response command carries a `breakpoints` field:
`null` for continue, step and clear_breakpoints, the breakpoint map for
set_breakpoints. `continue_all` writes exactly
`{"command":"continue","breakpoints":null}` to the row of every paused hash,
clear_breakpoints likewise with its command, and step writes
`{"command":"step","breakpoints":null}` to the rows it writes to. -/
theorem C2_commands_carry_breakpoints_field (s : State) (execFails : String → Bool)
    (x0 : String) :
    (debuggerContinueAll s execFails).writes =
      s.debuggerState.keys.map (fun k =>
        (k, "\x7b\"command\":\"continue\",\"breakpoints\":null\x7d")) ∧
    (debuggerClearBreakpoints s execFails).writes =
      s.debuggerState.keys.map (fun k =>
        (k, "\x7b\"command\":\"clear_breakpoints\",\"breakpoints\":null\x7d")) ∧
    (debuggerStep s (some x0) execFails).writes =
      (s.debuggerState.keys.filter (fun k =>
        (s.debuggerState.lookup k).any (fun ts => decide (ts.ThreadIdInt = Atoi x0)))).map
          (fun k => (k, "\x7b\"command\":\"step\",\"breakpoints\":null\x7d")) ∧
    (debuggerUpdateActiveBreakpoints s execFails).writes =
      s.debuggerState.keys.map (fun k =>
        (k, "\x7b\"command\":\"set_breakpoints\",\"breakpoints\":" ++
          jsonObject (jsonObject jsonBool) (mapBreakpoints s) ++ "\x7d")) := by
  have hc : marshalDebuggerResponse { Command := "continue", BreakPoints := none }
      = "\x7b\"command\":\"continue\",\"breakpoints\":null\x7d" := by decide
  have hx : marshalDebuggerResponse { Command := "clear_breakpoints", BreakPoints := none }
      = "\x7b\"command\":\"clear_breakpoints\",\"breakpoints\":null\x7d" := by decide
  have hs : marshalDebuggerResponse { Command := "step", BreakPoints := none }
      = "\x7b\"command\":\"step\",\"breakpoints\":null\x7d" := by decide
  have hb : "\x7b\"command\":" ++ jsonString "set_breakpoints" ++ ",\"breakpoints\":"
      = "\x7b\"command\":\"set_breakpoints\",\"breakpoints\":" := by decide
  refine ⟨?_, ?_, ?_, ?_⟩
  · simp only [debuggerContinueAll, releaseLoop_writes, hc]
  · simp only [debuggerClearBreakpoints, releaseLoop_writes, hx]
  · simp only [debuggerStep]
    rw [step_fold_writes, hs]
    simp
  · simp only [debuggerUpdateActiveBreakpoints, releaseLoop_writes, marshalDebuggerResponse, hb]

/-! ## set_breakpoints -/

/-- C3 at a failing input: `h1` is paused, the set_breakpoints request decodes,
and the call to `__pogo_break_points_verify` returns an error. The handler goes
on to `debuggerUpdateActiveBreakpoints`: `h1` leaves `debuggerState`, joins
`notificationBlocks`, and its row is sent a set_breakpoints command. -/
theorem C3_verify_error_still_releases_paused :
    pausedOne.debuggerState.keys = ["h1"] ∧
    pausedOne.notificationBlocks.keys = [] ∧
    (debuggerSetBreakpoints pausedOne
        (some [{ Page := "p", Breakpoints := [{ Line := 5, Id := "" }] }])
        (fun _ => .dbError) (fun _ => false)).state.debuggerState.keys = [] ∧
    (debuggerSetBreakpoints pausedOne
        (some [{ Page := "p", Breakpoints := [{ Line := 5, Id := "" }] }])
        (fun _ => .dbError) (fun _ => false)).state.notificationBlocks.keys = ["h1"] ∧
    (debuggerSetBreakpoints pausedOne
        (some [{ Page := "p", Breakpoints := [{ Line := 5, Id := "" }] }])
        (fun _ => .dbError) (fun _ => false)).writes
      = [("h1", "\x7b\"command\":\"set_breakpoints\",\"breakpoints\":\x7b\x7d\x7d")] := by
  decide

theorem lookup_foldl_insert_entries {V W : Type} (f : V → W)
    (es : List (Sigma fun _ : String => V)) (hnd : es.NodupKeys) (init : GoMap W) (p : String) :
    (es.foldl (fun acc e => acc.insert e.1 (f e.2)) init).lookup p =
      match es.dlookup p with
      | some v => some (f v)
      | none => init.lookup p := by
  induction es generalizing init with
  | nil => simp
  | cons e es ih =>
    obtain ⟨k, v⟩ := e
    rw [List.nodupKeys_cons] at hnd
    simp only [List.foldl_cons]
    rw [ih hnd.2]
    by_cases hp : p = k
    · subst hp
      have hn : List.dlookup p es = none := List.dlookup_eq_none.mpr hnd.1
      simp [hn, List.dlookup_cons_eq]
    · rw [List.dlookup_cons_ne es ⟨k, v⟩ hp, AList.lookup_insert_ne hp]

theorem setBreakpoints_verified (s : State) (vr : List verificationRequestResponse)
    (verify : List verificationRequestResponse → VerifyOutcome) (execFails : String → Bool)
    (l : List verificationRequestResponse) (hv : verify vr = .reply l false) :
    (debuggerSetBreakpoints s (some vr) verify execFails).state.verifiedBreakpoints =
      l.foldl (fun m value => m.insert value.Page value.Breakpoints) s.verifiedBreakpoints := by
  simp only [debuggerSetBreakpoints, debuggerUpdateActiveBreakpoints, releaseLoop_state, hv]

/-- C4, as stated, fails: from a state whose verified set holds page `q`,
set_breakpoints for the set with the single page `p`, the verifier returning
its input, leaves a verified set with both pages, which is not the requested
set. -/
theorem C4_round_trip_counterexample :
    identityVerifier (requestOf sampleR) = .reply (requestOf sampleR) false ∧
    (debuggerSetBreakpoints verifiedQ (some (requestOf sampleR)) identityVerifier
        (fun _ => false)).state.verifiedBreakpoints.keys = ["p", "q"] ∧
    (debuggerSetBreakpoints verifiedQ (some (requestOf sampleR)) identityVerifier
        (fun _ => false)).state.verifiedBreakpoints ≠ sampleR := by
  refine ⟨rfl, by decide, fun h => ?_⟩
  have hk := congrArg AList.keys h
  revert hk
  decide

/-- C4, amended. If the verifier returns its input unchanged, then after
`debuggerSetBreakpoints(R)` the verified set maps every page of `R` to the
sequence `R` gives it and every other page to what it held before the call; so
it equals `R`, as a mapping, when the verified set before the call had no page
outside `R` (for one, when it was empty). -/
theorem C4_set_breakpoints_merges_per_page (s : State) (R : GoMap (List pageBreakpoint))
    (verify : List verificationRequestResponse → VerifyOutcome) (execFails : String → Bool)
    (hid : verify (requestOf R) = .reply (requestOf R) false) :
    (∀ p : String,
      (debuggerSetBreakpoints s (some (requestOf R)) verify
          execFails).state.verifiedBreakpoints.lookup p =
        match R.lookup p with
        | some bps => some bps
        | none => s.verifiedBreakpoints.lookup p) ∧
    ((∀ p : String, p ∈ s.verifiedBreakpoints → p ∈ R) →
      ∀ p : String,
        (debuggerSetBreakpoints s (some (requestOf R)) verify
            execFails).state.verifiedBreakpoints.lookup p = R.lookup p) := by
  have key : ∀ p : String,
      (debuggerSetBreakpoints s (some (requestOf R)) verify
          execFails).state.verifiedBreakpoints.lookup p =
        match R.lookup p with
        | some bps => some bps
        | none => s.verifiedBreakpoints.lookup p := by
    intro p
    rw [setBreakpoints_verified s _ verify execFails _ hid, requestOf, List.foldl_map]
    have h := lookup_foldl_insert_entries id R.entries R.nodupKeys s.verifiedBreakpoints p
    simp only [id] at h
    rw [h]
    have hl : List.dlookup p R.entries = R.lookup p := rfl
    rw [hl]
    cases R.lookup p <;> rfl
  refine ⟨key, fun hsub p => ?_⟩
  rw [key p]
  cases hl : R.lookup p with
  | some bps => rfl
  | none =>
    have hnR : p ∉ R := AList.lookup_eq_none.mp hl
    exact AList.lookup_eq_none.mpr (fun hm => hnR (hsub p hm))

/-- C4, amended, on scenario 3 of the specification from the initial state. -/
theorem C4_set_breakpoints_merges_per_page_witness :
    identityVerifier (requestOf sampleR) = .reply (requestOf sampleR) false ∧
    ∀ p : String,
      (debuggerSetBreakpoints State.init (some (requestOf sampleR)) identityVerifier
          (fun _ => false)).state.verifiedBreakpoints.lookup p = sampleR.lookup p :=
  ⟨rfl, (C4_set_breakpoints_merges_per_page State.init sampleR identityVerifier
    (fun _ => false) rfl).2 (fun p hp => absurd hp (AList.not_mem_empty p))⟩

/-! ## The broadcast breakpoint map -/

theorem mem_foldl_insert_lines (vb : List pageBreakpoint) (init : GoMap Bool) (str : String) :
    str ∈ vb.foldl (fun pageBreakpoints ff => pageBreakpoints.insert (Itoa ff.Line) true) init ↔
      str ∈ init ∨ ∃ ff ∈ vb, Itoa ff.Line = str := by
  induction vb generalizing init with
  | nil => simp
  | cons b vb ih =>
    simp only [List.foldl_cons, ih, AList.mem_insert, List.mem_cons, exists_eq_or_imp]
    constructor
    · rintro ((h | h) | h)
      · exact Or.inr (Or.inl h.symm)
      · exact Or.inl h
      · exact Or.inr (Or.inr h)
    · rintro (h | h | h)
      · exact Or.inl (Or.inr h)
      · exact Or.inl (Or.inl h.symm)
      · exact Or.inr h

theorem lookup_foldl_insert_lines (vb : List pageBreakpoint) (init : GoMap Bool) (str : String)
    (hinit : ∀ b : Bool, init.lookup str = some b → b = true) (b : Bool)
    (hb : (vb.foldl (fun pageBreakpoints ff => pageBreakpoints.insert (Itoa ff.Line) true)
      init).lookup str = some b) : b = true := by
  induction vb generalizing init with
  | nil => exact hinit b hb
  | cons x vb ih =>
    refine ih (init.insert (Itoa x.Line) true) (fun c hc => ?_) hb
    by_cases hx : str = Itoa x.Line
    · subst hx
      rw [AList.lookup_insert] at hc
      exact (Option.some.inj hc).symm
    · rw [AList.lookup_insert_ne hx] at hc
      exact hinit c hc

theorem mapBreakpoints_lookup (s : State) (p : String) :
    (mapBreakpoints s).lookup p =
      match s.verifiedBreakpoints.lookup p with
      | some vb => some
          (vb.foldl (fun pageBreakpoints ff => pageBreakpoints.insert (Itoa ff.Line) true) ∅)
      | none => none := by
  have h := lookup_foldl_insert_entries
    (fun vb : List pageBreakpoint =>
      (vb.foldl (fun pageBreakpoints ff => pageBreakpoints.insert (Itoa ff.Line) true) ∅ :
        GoMap Bool))
    s.verifiedBreakpoints.entries s.verifiedBreakpoints.nodupKeys ∅ p
  have hl : List.dlookup p s.verifiedBreakpoints.entries = s.verifiedBreakpoints.lookup p := rfl
  rw [hl] at h
  unfold mapBreakpoints
  rw [h]
  cases s.verifiedBreakpoints.lookup p <;> rfl

/-- C10. The breakpoint map broadcast to paused threads is the set-image of the
verified breakpoint set: the pages of `mapBreakpoints` are exactly the pages of
`verifiedBreakpoints`; for a page `p` with verified breakpoints `vb`, the
inner map of `p` has a string as key exactly when the string is the decimal
rendering of the line of some breakpoint in `vb`, and every key has the value
`true`; and every statement `debuggerUpdateActiveBreakpoints` issues carries
the encoding of the command `set_breakpoints` with exactly this map. -/
theorem C10_broadcast_map_is_image_of_verified (s : State) (execFails : String → Bool) :
    (∀ p : String, p ∈ mapBreakpoints s ↔ p ∈ s.verifiedBreakpoints) ∧
    (∀ (p : String) (vb : List pageBreakpoint), s.verifiedBreakpoints.lookup p = some vb →
      ∃ inner : GoMap Bool, (mapBreakpoints s).lookup p = some inner ∧
        ∀ str : String,
          (str ∈ inner ↔ ∃ ff ∈ vb, Itoa ff.Line = str) ∧
          (str ∈ inner → inner.lookup str = some true)) ∧
    (debuggerUpdateActiveBreakpoints s execFails).writes =
      s.debuggerState.keys.map (fun k =>
        (k, marshalDebuggerResponse
          { Command := "set_breakpoints", BreakPoints := some (mapBreakpoints s) })) := by
  refine ⟨fun p => ?_, fun p vb hvb => ?_, ?_⟩
  · rw [← AList.lookup_isSome, ← AList.lookup_isSome, mapBreakpoints_lookup]
    cases s.verifiedBreakpoints.lookup p <;> simp
  · refine ⟨_, by rw [mapBreakpoints_lookup, hvb], fun str => ⟨?_, fun hm => ?_⟩⟩
    · rw [mem_foldl_insert_lines]
      simp
    · obtain ⟨b, hb⟩ := Option.isSome_iff_exists.mp (AList.lookup_isSome.mpr hm)
      have hbt := lookup_foldl_insert_lines vb ∅ str (fun c hc => by simp at hc) b hb
      rw [hb, hbt]
  · simp only [debuggerUpdateActiveBreakpoints, releaseLoop_writes]

/-- C10 on a state with one paused thread whose verified set holds page `p`
with breakpoints on lines 5 and 12. -/
theorem C10_broadcast_map_is_image_of_verified_witness :
    verifiedP.verifiedBreakpoints.lookup "p"
      = some [{ Line := 5, Id := "a" }, { Line := 12, Id := "b" }] ∧
    ∃ inner : GoMap Bool, (mapBreakpoints verifiedP).lookup "p" = some inner ∧
      ∀ str : String,
        (str ∈ inner ↔
          ∃ ff ∈ [({ Line := 5, Id := "a" } : pageBreakpoint), { Line := 12, Id := "b" }],
            Itoa ff.Line = str) ∧
        (str ∈ inner → inner.lookup str = some true) :=
  ⟨by decide,
   (C10_broadcast_map_is_image_of_verified verifiedP (fun _ => false)).2.1 "p" _ (by decide)⟩

/-! ## Counting notifications -/

theorem notification_lookup_other (s : State) (d : Delivery) (h : String)
    (hd : handledFor h d = false) :
    (debuggerNotifficationReceived s d.1 d.2).debuggerState.lookup h
      = s.debuggerState.lookup h := by
  obtain ⟨ir, request⟩ := d
  unfold debuggerNotifficationReceived
  cases ir with
  | none => rfl
  | some ir =>
    cases request with
    | none => rfl
    | some r =>
      have hne : h ≠ ir.Hash := by
        intro he
        simp [handledFor, he] at hd
      by_cases hb : ir.Hash ∈ s.notificationBlocks
      · simp [hb]
      · simp only [hb, if_false]
        rw [AList.lookup_insert_ne hne, (mapThreadIdToInt_frame s ir.ThreadId).1]

theorem notification_count_handled (s : State) (d : Delivery) (h : String)
    (hd : handledFor h d = true) (hb : h ∉ s.notificationBlocks) :
    ∃ ts, (debuggerNotifficationReceived s d.1 d.2).debuggerState.lookup h = some ts ∧
      ts.NotifsCount = notifsCountOf s h + 1 := by
  obtain ⟨ir, request⟩ := d
  cases ir with
  | none => simp [handledFor] at hd
  | some ir =>
    cases request with
    | none => simp [handledFor] at hd
    | some r =>
      have he : ir.Hash = h := by simpa [handledFor] using hd
      subst he
      unfold debuggerNotifficationReceived
      simp only [hb, if_false, AList.lookup_insert]
      refine ⟨_, rfl, ?_⟩
      simp only [notifsCountOf]

theorem deliver_count (ds : List Delivery) (s : State) (h : String)
    (hb : h ∉ s.notificationBlocks) :
    notifsCountOf (deliver s ds) h = notifsCountOf s h + (ds.countP (handledFor h) : Nat) ∧
    (1 ≤ ds.countP (handledFor h) → ((deliver s ds).debuggerState.lookup h).isSome) := by
  induction ds generalizing s with
  | nil => simp [deliver]
  | cons d ds ih =>
    have hb1 : h ∉ (debuggerNotifficationReceived s d.1 d.2).notificationBlocks := by
      rw [notification_blocks]; exact hb
    have ih1 := ih (debuggerNotifficationReceived s d.1 d.2) hb1
    have hstep : deliver s (d :: ds) = deliver (debuggerNotifficationReceived s d.1 d.2) ds := rfl
    rw [hstep]
    cases hd : handledFor h d with
    | false =>
      have hl := notification_lookup_other s d h hd
      have hc : notifsCountOf (debuggerNotifficationReceived s d.1 d.2) h = notifsCountOf s h := by
        simp only [notifsCountOf, hl]
      rw [List.countP_cons_of_neg _ _ (by simp [hd])]
      exact ⟨by rw [ih1.1, hc], ih1.2⟩
    | true =>
      obtain ⟨ts, hts, hcount⟩ := notification_count_handled s d h hd hb
      have hc : notifsCountOf (debuggerNotifficationReceived s d.1 d.2) h
          = notifsCountOf s h + 1 := by
        simp only [notifsCountOf, hts, hcount]
      rw [List.countP_cons_of_pos _ _ hd]
      refine ⟨by rw [ih1.1, hc]; push_cast; ring, fun _ => ?_⟩
      by_cases hz : ds.countP (handledFor h) = 0
      · have hall : ∀ x ∈ ds, handledFor h x = false := by
          intro x hx
          have := (List.countP_eq_zero.mp hz) x hx
          simpa using this
        clear ih ih1
        have hkeep : ∀ (l : List Delivery) (t : State), (∀ x ∈ l, handledFor h x = false) →
            (deliver t l).debuggerState.lookup h = t.debuggerState.lookup h := by
          intro l
          induction l with
          | nil => intro t _; rfl
          | cons x l ihl =>
            intro t hx
            have hs2 : deliver t (x :: l) = deliver (debuggerNotifficationReceived t x.1 x.2) l :=
              rfl
            rw [hs2, ihl _ (fun y hy => hx y (List.mem_cons_of_mem _ hy)),
              notification_lookup_other t x h (hx x (List.mem_cons_self _ _))]
        rw [hkeep ds _ hall, hts]
        rfl
      · exact ih1.2 (Nat.one_le_iff_ne_zero.mpr hz)

/-- C6. Let `h` be neither paused nor blocked. After any sequence of deliveries
of stop notifications, for `h` or for other hashes, parsed or not, of which
`N >= 1` are notifications for `h` that are handled successfully, `h` has an
entry and its `NotifsCount` is exactly `N`. (Deliveries release nothing, so no
release of `h` intervenes.) -/
theorem C6_notifications_count_exact (s : State) (h : String) (ds : List Delivery) (N : Nat)
    (hp : h ∉ s.debuggerState) (hb : h ∉ s.notificationBlocks)
    (hN : ds.countP (handledFor h) = N) (hpos : 1 ≤ N) :
    ∃ ts : threadState, (deliver s ds).debuggerState.lookup h = some ts ∧
      ts.NotifsCount = (N : Int) := by
  subst hN
  obtain ⟨hcount, hsome⟩ := deliver_count ds s h hb
  obtain ⟨ts, hts⟩ := Option.isSome_iff_exists.mp (hsome hpos)
  refine ⟨ts, hts, ?_⟩
  have h0 : notifsCountOf s h = 0 := by
    simp only [notifsCountOf, AList.lookup_eq_none.mpr hp]
  rw [h0, zero_add] at hcount
  simp only [notifsCountOf, hts] at hcount
  exact hcount

/-- C6 on a run from the initial state: two notifications for `h1`, with a
notification for `h2` and an unparsable payload in between. -/
theorem C6_notifications_count_exact_witness :
    ∃ ts : threadState,
      (deliver State.init
        [(some (sampleNotification "h1" "t-A"), some sampleRequest),
         (some (sampleNotification "h2" "t-B"), some sampleRequest),
         (none, none),
         (some (sampleNotification "h1" "t-A"), some sampleRequest)]).debuggerState.lookup "h1"
        = some ts ∧
      ts.NotifsCount = ((2 : Nat) : Int) :=
  C6_notifications_count_exact State.init "h1" _ 2 (by decide) (by decide) (by decide) (by decide)

/-! ## The interner -/

theorem mapThreadIdToInt_found (s : State) (x : String) (i : Int)
    (h : s.threadToIntMap.lookup x = some i) : mapThreadIdToInt s x = (s, i) := by
  unfold mapThreadIdToInt
  rw [h]

theorem mapThreadIdToInt_new (s : State) (x : String)
    (h : s.threadToIntMap.lookup x = none) :
    mapThreadIdToInt s x =
      ({ s with
          threadToIntMap := s.threadToIntMap.insert x ((len s.threadToIntMap : Int) + 1)
          threadIntToStringMap :=
            s.threadIntToStringMap.insert ((len s.threadToIntMap : Int) + 1) x },
        (len s.threadToIntMap : Int) + 1) := by
  unfold mapThreadIdToInt
  rw [h]

theorem mapThreadIdToInt_recorded (s : State) (x : String) :
    (mapThreadIdToInt s x).1.threadToIntMap.lookup x = some (mapThreadIdToInt s x).2 := by
  cases hl : s.threadToIntMap.lookup x with
  | some i => rw [mapThreadIdToInt_found s x i hl]; exact hl
  | none => rw [mapThreadIdToInt_new s x hl]; exact AList.lookup_insert _

theorem mapThreadIdToInt_stable (s : State) (y x : String) (i : Int)
    (h : s.threadToIntMap.lookup x = some i) :
    (mapThreadIdToInt s y).1.threadToIntMap.lookup x = some i := by
  cases hl : s.threadToIntMap.lookup y with
  | some j => rw [mapThreadIdToInt_found s y j hl]; exact h
  | none =>
    rw [mapThreadIdToInt_new s y hl]
    have hne : x ≠ y := by
      intro he
      rw [he, hl] at h
      exact Option.noConfusion h
    simp only [AList.lookup_insert_ne hne]
    exact h

theorem internAll_stable (l : List String) (s : State) (x : String) (i : Int)
    (h : s.threadToIntMap.lookup x = some i) :
    (internAll s l).1.threadToIntMap.lookup x = some i := by
  induction l generalizing s with
  | nil => exact h
  | cons y l ih => exact ih _ (mapThreadIdToInt_stable s y x i h)

theorem internAll_results (l : List String) (s : State) :
    (internAll s l).2 =
      l.map (fun x => ((internAll s l).1.threadToIntMap.lookup x).getD 0) := by
  induction l generalizing s with
  | nil => rfl
  | cons y l ih =>
    have hy := internAll_stable l _ y _ (mapThreadIdToInt_recorded s y)
    have hrest := ih (mapThreadIdToInt s y).1
    show (mapThreadIdToInt s y).2 :: (internAll (mapThreadIdToInt s y).1 l).2 = _
    rw [hrest]
    show _ = ((internAll (mapThreadIdToInt s y).1 l).1.threadToIntMap.lookup y).getD 0 ::
      l.map (fun x => ((internAll (mapThreadIdToInt s y).1 l).1.threadToIntMap.lookup x).getD 0)
    rw [hy]
    rfl

theorem internerInv_step (s : State) (S : Finset String) (x : String) (h : InternerInv s S) :
    InternerInv (mapThreadIdToInt s x).1 (insert x S) := by
  obtain ⟨hA, hB, hC, hD⟩ := h
  cases hl : s.threadToIntMap.lookup x with
  | some i =>
    rw [mapThreadIdToInt_found s x i hl]
    have hx : x ∈ S := (hA x).mp (AList.lookup_isSome.mp (by rw [hl]; rfl))
    rw [Finset.insert_eq_of_mem hx]
    exact ⟨hA, hB, hC, hD⟩
  | none =>
    rw [mapThreadIdToInt_new s x hl]
    have hxm : x ∉ s.threadToIntMap := AList.lookup_eq_none.mp hl
    have hxS : x ∉ S := fun hx => hxm ((hA x).mpr hx)
    have hlen : len (s.threadToIntMap.insert x ((len s.threadToIntMap : Int) + 1))
        = len s.threadToIntMap + 1 := by
      simp only [len, AList.insert_entries_of_neg hxm, List.length_cons]
    have hr : ((len s.threadToIntMap : Int) + 1) ∉ s.threadIntToStringMap := by
      intro hm
      have := ((hD _).mp hm).2
      omega
    refine ⟨fun y => ?_, ?_, fun y i => ?_, fun i => ?_⟩
    · simp only [AList.mem_insert, Finset.mem_insert, hA]
    · show len (s.threadToIntMap.insert x ((len s.threadToIntMap : Int) + 1)) = _
      rw [hlen, Finset.card_insert_of_not_mem hxS, hB]
    · by_cases hy : y = x
      · subst hy
        simp only [AList.lookup_insert]
        by_cases hi : i = (len s.threadToIntMap : Int) + 1
        · subst hi
          simp only [AList.lookup_insert]
        · simp only [AList.lookup_insert_ne hi]
          constructor
          · intro he
            exact absurd (Option.some.inj he).symm hi
          · intro he
            rw [← hC, hl] at he
            exact Option.noConfusion he
      · simp only [AList.lookup_insert_ne hy]
        by_cases hi : i = (len s.threadToIntMap : Int) + 1
        · subst hi
          simp only [AList.lookup_insert]
          constructor
          · intro he
            rw [hC] at he
            exact absurd (AList.lookup_isSome.mp (by rw [he]; rfl)) hr
          · intro he
            exact absurd (Option.some.inj he).symm hy
        · simp only [AList.lookup_insert_ne hi]
          exact hC y i
    · simp only [AList.mem_insert, hD, hlen]
      push_cast
      omega

theorem internerInv_internAll (l : List String) (s : State) (S : Finset String)
    (h : InternerInv s S) : InternerInv (internAll s l).1 (S ∪ l.toFinset) := by
  induction l generalizing s S with
  | nil => simpa using h
  | cons y l ih =>
    have h1 := ih _ _ (internerInv_step s S y h)
    have hS : insert y S ∪ l.toFinset = S ∪ (y :: l).toFinset := by
      ext z
      simp only [Finset.mem_union, Finset.mem_insert, List.toFinset_cons]
      tauto
    rw [hS] at h1
    exact h1

theorem internerInv_empty (s : State) (h1 : s.threadToIntMap = ∅)
    (h2 : s.threadIntToStringMap = ∅) : InternerInv s ∅ := by
  refine ⟨fun x => ?_, ?_, fun x i => ?_, fun i => ?_⟩
  · simp [h1]
  · simp [h1, len]
  · simp [h1, h2]
  · simp only [h1, h2, len, AList.not_mem_empty, false_iff]
    simp
    omega

/-- C7. Calls of `mapThreadIdToInt` made one after the other for the strings of
`l`, from an empty interner. Every call returned the integer the table holds
for its string at the end; the strings in the table are those of `l`; a string
in the table gets its integer again at any later call, which changes nothing; a
string not seen yet gets the number of distinct strings seen so far plus one;
the integers in use are exactly 1 .. n for the n distinct strings of `l`; no
integer is given to two strings; and `threadToIntMap` and
`threadIntToStringMap` are inverse to each other. -/
theorem C7_interner_first_seen_order (s0 : State) (l : List String)
    (h1 : s0.threadToIntMap = ∅) (h2 : s0.threadIntToStringMap = ∅) :
    (internAll s0 l).2 =
      l.map (fun x => ((internAll s0 l).1.threadToIntMap.lookup x).getD 0) ∧
    (∀ x : String, x ∈ (internAll s0 l).1.threadToIntMap ↔ x ∈ l) ∧
    (∀ (x : String) (i : Int), (internAll s0 l).1.threadToIntMap.lookup x = some i →
      ∀ l2 : List String,
        mapThreadIdToInt (internAll (internAll s0 l).1 l2).1 x
          = ((internAll (internAll s0 l).1 l2).1, i)) ∧
    (∀ x : String, x ∉ l →
      (mapThreadIdToInt (internAll s0 l).1 x).2 = (l.toFinset.card : Int) + 1) ∧
    (∀ i : Int, (∃ x : String, (internAll s0 l).1.threadToIntMap.lookup x = some i) ↔
      1 ≤ i ∧ i ≤ (l.toFinset.card : Int)) ∧
    (∀ (x y : String) (i : Int), (internAll s0 l).1.threadToIntMap.lookup x = some i →
      (internAll s0 l).1.threadToIntMap.lookup y = some i → x = y) ∧
    (∀ (x : String) (i : Int), (internAll s0 l).1.threadToIntMap.lookup x = some i ↔
      (internAll s0 l).1.threadIntToStringMap.lookup i = some x) := by
  have hinv := internerInv_internAll l s0 ∅ (internerInv_empty s0 h1 h2)
  rw [Finset.empty_union] at hinv
  obtain ⟨hA, hB, hC, hD⟩ := hinv
  refine ⟨internAll_results l s0, fun x => ?_, fun x i hx l2 => ?_, fun x hx => ?_, fun i => ?_,
    fun x y i hx hy => ?_, hC⟩
  · rw [hA, List.mem_toFinset]
  · exact mapThreadIdToInt_found _ x i (internAll_stable l2 _ x i hx)
  · have hn : (internAll s0 l).1.threadToIntMap.lookup x = none :=
      AList.lookup_eq_none.mpr (fun hm => hx (List.mem_toFinset.mp ((hA x).mp hm)))
    rw [mapThreadIdToInt_new _ x hn, hB]
  · rw [← hB, ← hD, ← AList.lookup_isSome, Option.isSome_iff_exists]
    constructor
    · rintro ⟨x, hx⟩
      exact ⟨x, (hC x i).mp hx⟩
    · rintro ⟨x, hx⟩
      exact ⟨x, (hC x i).mpr hx⟩
  · have hx1 := (hC x i).mp hx
    have hy1 := (hC y i).mp hy
    rw [hx1] at hy1
    exact Option.some.inj hy1

/-- C7 on the calls for `t-A`, `t-B`, `t-A` from the initial state, whose
results are 1, 2, 1; a call for `t-C` would return 3. -/
theorem C7_interner_first_seen_order_witness :
    (State.init.threadToIntMap = ∅ ∧ State.init.threadIntToStringMap = ∅) ∧
    (internAll State.init ["t-A", "t-B", "t-A"]).2 = [1, 2, 1] ∧
    (internAll State.init ["t-A", "t-B", "t-A"]).2 =
      ["t-A", "t-B", "t-A"].map (fun x =>
        ((internAll State.init ["t-A", "t-B", "t-A"]).1.threadToIntMap.lookup x).getD 0) ∧
    (mapThreadIdToInt (internAll State.init ["t-A", "t-B", "t-A"]).1 "t-C").2
      = ((["t-A", "t-B", "t-A"].toFinset.card : Nat) : Int) + 1 :=
  ⟨⟨rfl, rfl⟩, by decide,
   (C7_interner_first_seen_order State.init ["t-A", "t-B", "t-A"] rfl rfl).1,
   (C7_interner_first_seen_order State.init ["t-A", "t-B", "t-A"] rfl rfl).2.2.2.1
      "t-C" (by decide)⟩


end PogoDebugger
